import Mathlib

set_option maxRecDepth 100000

/-!
Verification of the chat-extraction core of the `minecraft_discord_bot`
repository: a shallow embedding of `src/chat_parser/chat_parser.py` and
`src/chat_parser/log_parser.py`, together with theorems about the claims
of the specification.

Modelling conventions:
* Python `str` values are Lean `String`s (or `List Char` in the tail-reader
  model); all inputs considered are ASCII, so Python's Unicode-aware
  behaviour of `\w`, `str.lower` and `str.rstrip` coincides with the
  ASCII behaviour modelled here.
* Python regular expressions are transcribed into the small `RE` syntax
  below; every pattern of the source is anchored as `^...$` and used only
  for its truth value, so matching is modelled by the set of reachable
  suffix positions (`RE.ends`) together with Python's rule that `$` also
  matches just before a final trailing newline.
* Functions that can raise a Python exception are modelled with
  `Except String`; the error string names the exception.
-/

/-! ## Python string primitives -/

/-- Python `pat in s` (substring containment). -/
def py_in (pat s : String) : Bool :=
  (List.range (s.toList.length + 1)).any
    (fun i => pat.toList.isPrefixOf (s.toList.drop i))

/-- Index of the first occurrence of `pat` in `s`, if any. -/
def first_occ (pat s : List Char) : Option Nat :=
  ((List.range (s.length + 1)).filter
    (fun i => pat.isPrefixOf (s.drop i))).head?

/-- The remainder after repeatedly skipping past the first occurrence of
`sep`, i.e. the last chunk of Python's left-to-right non-overlapping
`s.split(sep)` scan.  The fuel argument only serves termination; `sep` is
never empty at the call sites (the three chat prefixes). -/
def last_chunk : List Char → Nat → List Char → List Char
  | _, 0, s => s
  | sep, fuel + 1, s =>
    match first_occ sep s with
    | none => s
    | some i => last_chunk sep fuel (s.drop (i + sep.length))

/-- Python `s.split(sep)[-1]`. -/
def py_split_last (sep s : String) : String :=
  String.mk (last_chunk sep.toList (s.toList.length + 1) s.toList)

/-- Python whitespace characters (ASCII range of `str.rstrip()`). -/
def is_py_space (c : Char) : Bool :=
  c = ' ' || c = '\t' || c = '\n' || c = '\r' || c = '\x0b' || c = '\x0c'

/-- Python `s.rstrip()` (ASCII whitespace). -/
def py_rstrip (s : String) : String :=
  String.mk ((s.toList.reverse.dropWhile is_py_space).reverse)

/-- Python `s.lower()` (ASCII range; `Char.toLower` lowers exactly
`'A'..'Z'`, matching `str.lower` on the ASCII inputs considered here). -/
def py_lower (s : String) : String :=
  String.mk (s.toList.map Char.toLower)

/-! ## A tiny regular-expression engine

Only the constructs appearing in the source's patterns are supported:
literal characters, `.` (any character except newline), character
classes of ranges, concatenation, alternation and `*`/`+`/`{4,6}`
(the latter two derived).  All source patterns are anchored `^...$`, and
are only ever tested for a match (`re.search`/`re.match`/`re.findall`
truthiness), so greedy and lazy repetition coincide and matching can be
modelled by the set of suffixes reachable after consuming the regex. -/

inductive RE where
  | eps : RE
  | chr : Char → RE
  | dot : RE
  | cls : List (Char × Char) → RE
  | cat : RE → RE → RE
  | alt : RE → RE → RE
  | star : RE → RE
deriving Repr

/-- Suffixes reachable by iterating `f` zero or more times, where only
strictly consuming iterations are followed (an iteration of a starred
regex that consumes nothing does not change the position, so the set of
reachable positions is unchanged by ignoring such iterations).  The fuel
argument bounds the number of iterations; since every followed step
strictly shrinks the suffix, `s.length` iterations always suffice. -/
def star_ends (f : List Char → List (List Char)) : Nat → List Char → List (List Char)
  | 0, s => [s]
  | fuel + 1, s =>
    s :: ((f s).filter (fun t => t.length < s.length)).flatMap (star_ends f fuel)

/-- All suffixes remaining after matching `r` at the head of `s`. -/
def RE.ends : RE → List Char → List (List Char)
  | .eps, s => [s]
  | .chr _, [] => []
  | .chr c, a :: t => if a = c then [t] else []
  | .dot, [] => []
  | .dot, a :: t => if a = '\n' then [] else [t]
  | .cls _, [] => []
  | .cls rs, a :: t =>
    if rs.any (fun p => decide (p.1 ≤ a) && decide (a ≤ p.2)) then [t] else []
  | .cat r1 r2, s => (RE.ends r1 s).flatMap (fun t => RE.ends r2 t)
  | .alt r1 r2, s => RE.ends r1 s ++ RE.ends r2 s
  | .star r, s => star_ends (RE.ends r) s.length s

/-- A literal string as a regex. -/
def re_lit (s : String) : RE :=
  s.toList.foldr (fun c r => .cat (.chr c) r) .eps

/-- Sequential composition of a list of regexes. -/
def re_seq (l : List RE) : RE := l.foldr .cat .eps

/-- `r+`. -/
def re_plus (r : RE) : RE := .cat r (.star r)

/-- `r?`. -/
def re_opt (r : RE) : RE := .alt .eps r

/-- `r{4,6}`. -/
def re_rep46 (r : RE) : RE := re_seq [r, r, r, r, re_opt r, re_opt r]

/-- Truth value of searching an anchored pattern `^r$` in `s`:
a match must consume the whole string, or all of it but a final
trailing newline (Python's `$`). -/
def full_match_d (r : RE) (s : String) : Bool :=
  (RE.ends r s.toList).any (fun rest => rest == [] || rest == ['\n'])

/-! ## The source's patterns (`MinecraftChatParser.__init__`) -/

/-- `[a-zA-Z]`. -/
def alpha_cls : RE := .cls [('a', 'z'), ('A', 'Z')]

/-- `[a-zA-z0-9]` exactly as written in the source: the `A-z` range also
admits the characters between `'Z'` and `'a'`. -/
def alnum_typo_cls : RE := .cls [('a', 'z'), ('A', 'z'), ('0', '9')]

/-- `\w` (ASCII range). -/
def word_cls : RE := .cls [('a', 'z'), ('A', 'Z'), ('0', '9'), ('_', '_')]

/-- `\d`. -/
def digit_cls : RE := .cls [('0', '9')]

/-- Chat prefix for Minecraft 1.19.2 (`_chat_message_patterns_list[0]`). -/
def pattern_1_19_2 : String :=
  "[Server thread/INFO] [net.minecraft.server.MinecraftServer/]: "

/-- Chat prefix for Minecraft 1.18.4 (`_chat_message_patterns_list[1]`). -/
def pattern_1_18_4 : String :=
  "[Server thread/INFO] [net.minecraft.server.dedicated.DedicatedServer/]: "

/-- `_chat_message_patterns_list[2]`. -/
def pattern_not_secure : String := "[Not Secure] "

/-- `_chat_message_patterns_list`. -/
def chat_message_patterns_list : List String :=
  [pattern_1_19_2, pattern_1_18_4, pattern_not_secure]

/-- `_stopped_server_pattern`:
`^\[.*?\] \[Server thread/INFO\] \[net.minecraft.server.MinecraftServer/\]: Stopping server$`
(the unescaped dots are `.`). -/
def stopped_server_re : RE :=
  re_seq [.chr '[', .star .dot, re_lit "] [Server thread/INFO] [net", .dot,
    re_lit "minecraft", .dot, re_lit "server", .dot,
    re_lit "MinecraftServer/]: Stopping server"]

/-- `_starting_server_pattern`:
`^\[.*?\] \[main/INFO\] \[.*?\]: ModLauncher running: args \[.*?\]$`. -/
def starting_server_re : RE :=
  re_seq [.chr '[', .star .dot, re_lit "] [main/INFO] [", .star .dot,
    re_lit "]: ModLauncher running: args [", .star .dot, re_lit "]"]

/-- First entry of `_started_server_patterns_list` (voice chat mode). -/
def started_voicechat_re : RE :=
  re_seq [.chr '[', .star .dot,
    re_lit
      "] [VoiceChatServerThread/INFO] [voicechat/]: [voicechat] Voice chat server started at port ",
    re_rep46 digit_cls]

/-- Second entry of `_started_server_patterns_list` (server 1.19.2). -/
def started_rcon_re : RE :=
  re_seq [.chr '[', .star .dot, re_lit "] [Server thread/INFO] [net", .dot,
    re_lit "minecraft", .dot, re_lit "server", .dot, re_lit "rcon", .dot,
    re_lit "thread", .dot, re_lit "RconThread/]: RCON running on ",
    .star .dot, re_lit ":", re_rep46 digit_cls]

/-- `_started_server_patterns_list`. -/
def started_server_patterns_list : List RE :=
  [started_voicechat_re, started_rcon_re]

/-- `_match_patterns`: true if at least one pattern matches the text. -/
def match_patterns (patterns : List RE) (text : String) : Bool :=
  patterns.any (fun r => full_match_d r text)

/-- First alternative of `_message_struct_pattern`:
`^\<[a-zA-Z]+[a-zA-z0-9]*\> .*?$`. -/
def message_struct_a : RE :=
  re_seq [.chr '<', re_plus alpha_cls, .star alnum_typo_cls, re_lit "> ",
    .star .dot]

/-- Second alternative of `_message_struct_pattern`:
`^[a-zA-Z]+[a-zA-z0-9]* [a-zA-Z]+[a-zA-z0-9]* .*?$`. -/
def message_struct_b : RE :=
  re_seq [re_plus alpha_cls, .star alnum_typo_cls, .chr ' ',
    re_plus alpha_cls, .star alnum_typo_cls, .chr ' ', .star .dot]

/-- `re.findall(self._message_struct_pattern, chat_message)` truthiness:
both alternatives are anchored, so a match exists iff one of them
matches the whole string. -/
def message_struct_match (s : String) : Bool :=
  full_match_d message_struct_a s || full_match_d message_struct_b s

/-- `VanishHandlerMasterPerki.VANISHED_PATTERN`:
`^\[\w+: \[Vanishmod\] \w+ vanished\]$` (note: no capture group). -/
def vanished_re : RE :=
  re_seq [.chr '[', re_plus word_cls, re_lit ": [Vanishmod] ",
    re_plus word_cls, re_lit " vanished]"]

/-- `VanishHandlerMasterPerki.UNVANISHED_PATTERN`:
`^\[\w+: \[Vanishmod\] \w+ unvanished\]$` (note: no capture group). -/
def unvanished_re : RE :=
  re_seq [.chr '[', re_plus word_cls, re_lit ": [Vanishmod] ",
    re_plus word_cls, re_lit " unvanished]"]

/-! ## Vanish handler (`VanishHandlerBase` / `VanishHandlerMasterPerki`)

The persistent storage file is modelled by the outcome of opening and
JSON-decoding it.  A decoded JSON array is modelled as a list of scalar
values (an array whose elements are themselves containers would make
Python's `set(data)` raise, which is outside the scope of the claims). -/

/-- A scalar JSON value, as storable in a Python `set`. -/
inductive JVal where
  | str : String → JVal
  | num : Int → JVal
  | boolean : Bool → JVal
  | null : JVal
deriving DecidableEq, Repr

/-- Outcome of opening and JSON-decoding the storage file. -/
inductive FileRead where
  | notFound : FileRead
  | decodeError : FileRead
  | nonList : FileRead
  | listVal : List JVal → FileRead
deriving DecidableEq, Repr

/-- Python `set(...)` over a list: deduplicating insertion. -/
def py_set (l : List JVal) : List JVal :=
  l.foldl (fun acc x => if x ∈ acc then acc else acc ++ [x]) []

/-- `VanishHandlerBase._load_data`: missing file, malformed JSON or a
non-list document give the empty set (with a log entry); a list gives
`set(data)` verbatim — no case normalisation. -/
def load_data : FileRead → List JVal
  | .notFound => []
  | .decodeError => []
  | .nonList => []
  | .listVal l => py_set l

/-- State of a vanish handler: the in-memory set `_vanished_players`,
the storage file, and a count of file rewrites (to observe whether
`_dump_data` ran). -/
structure VState where
  mem : List JVal
  disk : FileRead
  writes : Nat
deriving DecidableEq, Repr

/-- `VanishHandlerBase.__init__`. -/
def init_vanish (file : FileRead) : VState :=
  { mem := load_data file, disk := file, writes := 0 }

/-- `VanishHandlerBase._dump_data`: rewrite the whole file from the
in-memory set. -/
def dump_data (v : VState) : VState :=
  { v with disk := .listVal v.mem, writes := v.writes + 1 }

/-- `VanishHandlerBase._vanish_player`. -/
def vanish_player (v : VState) (username : String) : VState :=
  let m := JVal.str (py_lower username)
  dump_data { v with mem := if m ∈ v.mem then v.mem else v.mem ++ [m] }

/-- `VanishHandlerBase._unvanish_player`: `set.remove` raises `KeyError`
when absent, which is caught — a warning is logged and the function
returns before `_dump_data`. -/
def unvanish_player (v : VState) (username : String) : VState :=
  let m := JVal.str (py_lower username)
  if m ∈ v.mem then dump_data { v with mem := v.mem.erase m } else v

/-- `VanishHandlerMasterPerki.is_vanished`. -/
def is_vanished (msg : String) : Bool := full_match_d vanished_re msg

/-- `VanishHandlerMasterPerki.is_unvanished`. -/
def is_unvanished (msg : String) : Bool := full_match_d unvanished_re msg

/-- `VanishHandlerMasterPerki.extract_username`: for each of the two
patterns, `re.match` is tried and `match.group(1)` returned on success —
but neither pattern contains a capture group, so a successful match
raises `IndexError` (modelled as an error value); otherwise the empty
string is returned. -/
def extract_username (msg : String) : Except String String :=
  if is_vanished msg then .error "IndexError: no such group"
  else if is_unvanished msg then .error "IndexError: no such group"
  else .ok ""

/-- `VanishHandlerBase.LEFT_GAME_PATTERN.format(username)`. -/
def left_game (username : String) : String := username ++ " left the game"

/-- `VanishHandlerBase.JOINED_GAME_PATTERN.format(username)`. -/
def joined_game (username : String) : String := username ++ " joined the game"

/-- `VanishHandlerBase.process_message`. -/
def process_message (v : VState) (msg : String) : Except String (VState × String) :=
  match extract_username msg with
  | .error e => .error e
  | .ok username =>
    if is_vanished msg then
      .ok (vanish_player v username, left_game username)
    else if is_unvanished msg then
      .ok (unvanish_player v username, joined_game username)
    else if JVal.str username ∈ v.mem then .ok (v, "")
    else .ok (v, msg)

/-! ## Chat extraction (`MinecraftChatParser`) -/

/-- Mutable state of a `MinecraftChatParser` relevant to classification:
the `_is_server_working` flag and the vanish handler. -/
structure ParserState where
  is_server_working : Bool
  vanish : VState
deriving DecidableEq, Repr

/-- `MinecraftChatParser._manage_server_status`: returns the banner
string (empty when no pattern matched) and the new value of
`_is_server_working`. -/
def manage_server_status (working : Bool) (message : String) : String × Bool :=
  if full_match_d stopped_server_re message then ("# Сервер остановлен.", false)
  else if full_match_d starting_server_re message then ("# Сервер запускается...", false)
  else if match_patterns started_server_patterns_list message then ("# Сервер запущен.", true)
  else ("", working)

/-- `MinecraftChatParser.extract_chat_message`. -/
def extract_chat_message (st : ParserState) (message : String) :
    Except String (ParserState × String) :=
  let sm := manage_server_status st.is_server_working message
  let st := { st with is_server_working := sm.2 }
  if sm.1 ≠ "" then .ok (st, sm.1)
  else if !st.is_server_working
      || (!(py_in pattern_1_19_2 message) && !(py_in pattern_1_18_4 message)) then
    .ok (st, "")
  else
    let chat_message :=
      chat_message_patterns_list.foldl (fun m p => py_split_last p m) message
    if message_struct_match chat_message then
      match process_message st.vanish chat_message with
      | .error e => .error e
      | .ok (v, res) => .ok ({ st with vanish := v }, res)
    else .ok (st, "")

/-- `MinecraftChatParser.get_chat_message`, over the stream of lines the
underlying reader yields (each element is one value returned by
`get_new_line`, trailing newline included; an empty string — and the end
of the list — is the reader's "no new data" signal, which breaks the
loop).  Returns the classifier state, the outward message and the lines
not yet consumed. -/
def get_chat_message (st : ParserState) :
    List String → Except String (ParserState × String × List String)
  | [] => .ok (st, "", [])
  | line :: rest =>
    if line = "" then .ok (st, "", rest)
    else
      match extract_chat_message st line with
      | .error e => .error e
      | .ok (st', chat_message) =>
        if chat_message ≠ "" then .ok (st', py_rstrip chat_message, rest)
        else get_chat_message st' rest

instance exceptDecEq {ε α : Type} [DecidableEq ε] [DecidableEq α] :
    DecidableEq (Except ε α) := fun x y =>
  match x, y with
  | .ok a, .ok b =>
    if h : a = b then isTrue (by rw [h])
    else isFalse (by intro hc; cases hc; exact h rfl)
  | .error a, .error b =>
    if h : a = b then isTrue (by rw [h])
    else isFalse (by intro hc; cases hc; exact h rfl)
  | .ok _, .error _ => isFalse (by intro hc; cases hc)
  | .error _, .ok _ => isFalse (by intro hc; cases hc)

/-! ## Tail reader (`FileChangesUtillity`)

The monitored file is a pair of content (Python `str` values are `List
Char` here) and a modification time.  The class state consists of
`_last_position`, `_cached_stamp` and the generator `_iterator`.  A
Python generator is lazy and, between `yield`s, keeps its file handle
open, so resuming it reads the file's current content from the handle's
position; it writes `_last_position` only when its `readline` loop
exhausts.  The iterator is therefore modelled as `Option Nat`:
`some p` is a started generator whose handle is at position `p`, `none`
an unstarted or exhausted one (both run the body from scratch at the
next `next(...)`; the only difference is one redundant, state-preserving
modification check).  Filesystem errors (the `except` clauses) are not
modelled: the file always exists and is readable. -/

/-- The monitored file. -/
structure MFile where
  content : List Char
  mtime : Nat
deriving DecidableEq, Repr

/-- Mutable state of `FileChangesUtillity`. -/
structure TailState where
  last_position : Nat
  cached_stamp : Nat
  gen : Option Nat
deriving DecidableEq, Repr

/-- `FileChangesUtillity.is_file_modified`: returns the boolean result
and the updated state. -/
def is_file_modified (f : MFile) (st : TailState) : Bool × TailState :=
  if f.mtime ≠ st.cached_stamp then
    let st := { st with cached_stamp := f.mtime }
    if f.content.length < st.last_position then
      (true, { st with last_position := 0 })
    else (true, st)
  else (false, st)

/-- `file.readline()` at position `p`: the characters up to and
including the first newline, or up to the end of the file. -/
def take_to_newline : List Char → List Char
  | [] => []
  | a :: t => if a = '\n' then [a] else a :: take_to_newline t

/-- One `next(...)` on a freshly created `_get_new_lines()` generator:
run the modification check; if modified, seek to `_last_position` and
read the first line (leaving the handle open behind `gen`), otherwise
the generator finishes without yielding (`_last_position` is then set
to `tell()`, which equals the seek position) and `get_new_line`'s
retry-once logic returns the empty result. -/
def gen_first_next (f : MFile) (st : TailState) : TailState × List Char :=
  let r := is_file_modified f st
  let st := r.2
  if r.1 then
    if st.last_position < f.content.length then
      let line := take_to_newline (f.content.drop st.last_position)
      ({ st with gen := some (st.last_position + line.length) }, line)
    else ({ st with gen := none }, [])
  else ({ st with gen := none }, [])

/-- `FileChangesUtillity.get_new_line`: pull from the stored iterator;
on `StopIteration` (which updates `_last_position` to `tell()` if the
generator's read loop just exhausted), recreate the generator and pull
once more; a second `StopIteration` yields the empty string. -/
def get_new_line (f : MFile) (st : TailState) : TailState × List Char :=
  match st.gen with
  | some p =>
    if p < f.content.length then
      let line := take_to_newline (f.content.drop p)
      ({ st with gen := some (p + line.length) }, line)
    else gen_first_next f { st with last_position := p, gen := none }
  | none => gen_first_next f st

/-- `FileChangesUtillity.__init__`: `_last_position` is the current file
size, `is_file_modified` is called once, and the (unstarted) generator
is created. -/
def init_tail (f : MFile) : TailState :=
  (is_file_modified f
    { last_position := f.content.length, cached_stamp := 0, gen := none }).2

/-! ### Traces of appends and polls -/

/-- A run: the file, the reader state, and the nonempty lines returned
so far. -/
structure RunState where
  file : MFile
  tail : TailState
  out : List (List Char)
deriving DecidableEq, Repr

/-- An external event: an append of whole lines to the file (setting a
new modification time), or one `get_new_line` poll. -/
inductive TEvent where
  | append : List (List Char) → Nat → TEvent
  | poll : TEvent
deriving DecidableEq, Repr

/-- Apply one event. -/
def apply_event (s : RunState) : TEvent → RunState
  | .append ls m =>
    { s with file := { content := s.file.content ++ ls.flatten, mtime := m } }
  | .poll =>
    let r := get_new_line s.file s.tail
    { s with tail := r.1, out := s.out ++ if r.2 = [] then [] else [r.2] }

/-- Run a list of events. -/
def run_events (evs : List TEvent) (s : RunState) : RunState :=
  evs.foldl apply_event s

/-- Run `n` polls. -/
def run_polls : Nat → RunState → RunState
  | 0, s => s
  | n + 1, s => run_polls n (apply_event s .poll)

/-- The run state at monitor start. -/
def init_run (f : MFile) : RunState :=
  { file := f, tail := init_tail f, out := [] }

/-- A complete log line: nonempty, ending in a newline, with no internal
newline. -/
def NlLine (l : List Char) : Prop := ∃ m, ¬ '\n' ∈ m ∧ l = m ++ ['\n']

/-- Executable form of `NlLine`. -/
def is_nl_line (l : List Char) : Bool :=
  !l.isEmpty && (l.getLast? == some '\n') && decide (¬ '\n' ∈ l.dropLast)

/-- A valid trace: every appended string is a sequence of complete
lines, and every append moves the file's modification time strictly
forward (appends that leave the mtime unchanged are invisible to the
polling reader and are excluded by the claim's own premise). -/
def valid_events (f : MFile) : List TEvent → Bool
  | [] => true
  | .poll :: rest => valid_events f rest
  | .append ls m :: rest =>
    decide (f.mtime < m) && ls.all is_nl_line
      && valid_events { content := f.content ++ ls.flatten, mtime := m } rest

/-- All lines appended during a trace, in order. -/
def all_lines : List TEvent → List (List Char)
  | [] => []
  | .append ls _ :: rest => ls ++ all_lines rest
  | .poll :: rest => all_lines rest

/-- A vanish-handler state with nothing vanished and a missing storage
file — the state right after first construction. -/
def v0 : VState := init_vanish .notFound

/-! ## Helper lemmas -/

theorem drop_while_idem (p : Char → Bool) (l : List Char) :
    List.dropWhile p (List.dropWhile p l) = List.dropWhile p l := by
  induction l with
  | nil => simp
  | cons a t ih =>
    by_cases h : p a
    · simpa [List.dropWhile, h] using ih
    · simp [List.dropWhile, h]

theorem py_rstrip_idem (s : String) : py_rstrip (py_rstrip s) = py_rstrip s := by
  show py_rstrip (String.mk ((s.toList.reverse.dropWhile is_py_space).reverse))
      = String.mk ((s.toList.reverse.dropWhile is_py_space).reverse)
  unfold py_rstrip
  rw [show (String.mk ((s.toList.reverse.dropWhile is_py_space).reverse)).toList
      = (s.toList.reverse.dropWhile is_py_space).reverse from rfl]
  rw [List.reverse_reverse, drop_while_idem]

theorem char_toLower_toLower (c : Char) :
    Char.toLower (Char.toLower c) = Char.toLower c := by
  unfold Char.toLower
  by_cases h : c.toNat ≥ 65 ∧ c.toNat ≤ 90
  · have hv : (c.toNat + 32).isValidChar := Or.inl (by omega)
    have ht : (Char.ofNat (c.toNat + 32)).toNat = c.toNat + 32 := by
      rw [Char.ofNat, dif_pos hv]
      rfl
    simp only [if_pos h, ht]
    rw [if_neg (by omega)]
  · simp only [if_neg h]

theorem py_lower_idem (s : String) : py_lower (py_lower s) = py_lower s := by
  show py_lower (String.mk (s.toList.map Char.toLower))
      = String.mk (s.toList.map Char.toLower)
  unfold py_lower
  rw [show (String.mk (s.toList.map Char.toLower)).toList
      = s.toList.map Char.toLower from rfl]
  rw [List.map_map]
  congr 1
  apply List.map_congr_left
  intro c _
  exact char_toLower_toLower c

theorem py_set_subset {x : JVal} {l : List JVal} (h : x ∈ py_set l) : x ∈ l := by
  suffices hgen : ∀ acc, x ∈ l.foldl
      (fun acc y => if y ∈ acc then acc else acc ++ [y]) acc → x ∈ acc ∨ x ∈ l by
    rcases hgen [] h with hc | hc
    · exact absurd hc (List.not_mem_nil x)
    · exact hc
  clear h
  induction l with
  | nil => intro acc hacc; exact Or.inl hacc
  | cons a t ih =>
    intro acc hacc
    simp only [List.foldl_cons] at hacc
    rcases ih _ hacc with hc | hc
    · by_cases hmem : a ∈ acc
      · rw [if_pos hmem] at hc
        exact Or.inl hc
      · rw [if_neg hmem] at hc
        rcases List.mem_append.1 hc with hc2 | hc2
        · exact Or.inl hc2
        · simp at hc2
          simp [hc2]
    · simp [hc]


/-! ## Claim theorems -/

/-- C1: with server status RUNNING and an empty vanished-player set,
classifying the log line
`"[Server thread/INFO] [net.minecraft.server.dedicated.DedicatedServer/]: <Iluvator> TEST"`
through `extract_chat_message` yields the outward chat message
`"<Iluvator> TEST"` (and so does `get_chat_message` when that line is
the next line of the monitored file). -/
theorem extract_chat_message_scenario_a :
    extract_chat_message { is_server_working := true, vanish := v0 }
      "[Server thread/INFO] [net.minecraft.server.dedicated.DedicatedServer/]: <Iluvator> TEST"
    = .ok ({ is_server_working := true, vanish := v0 }, "<Iluvator> TEST")
    ∧ get_chat_message { is_server_working := true, vanish := v0 }
      ["[Server thread/INFO] [net.minecraft.server.dedicated.DedicatedServer/]: <Iluvator> TEST\n"]
    = .ok ({ is_server_working := true, vanish := v0 }, "<Iluvator> TEST", []) := by
  decide

/-- C2 (refuting evaluation): processing the vanish marker line does not
produce `"Iluvator left the game"` and records nothing.  Applying
`process_message` to the body `"[Iluvator: [Vanishmod] Iluvator vanished]"`
raises `IndexError` (`match.group(1)` on a pattern without capture
groups), and through `extract_chat_message` the marker line — with or
without a chat prefix — yields the empty string with the vanish state
untouched, because the bare body is rejected by the eligibility gate and
the prefixed body fails `_message_struct_pattern` before the vanish
handler is ever consulted. -/
theorem vanish_marker_scenario_c_eval :
    process_message v0 "[Iluvator: [Vanishmod] Iluvator vanished]"
      = .error "IndexError: no such group"
    ∧ extract_chat_message { is_server_working := true, vanish := v0 }
        "[Server thread/INFO] [net.minecraft.server.dedicated.DedicatedServer/]: [Iluvator: [Vanishmod] Iluvator vanished]"
      = .ok ({ is_server_working := true, vanish := v0 }, "")
    ∧ extract_chat_message { is_server_working := true, vanish := v0 }
        "[Iluvator: [Vanishmod] Iluvator vanished]"
      = .ok ({ is_server_working := true, vanish := v0 }, "") := by
  decide

/-- C3 (refuting evaluation): `process_message` does not return normally
on every line — on the unvanish marker line
`"[Iluvator: [Vanishmod] Iluvator unvanished]"` (which
`is_unvanished` recognises) it raises `IndexError`, because
`extract_username` calls `match.group(1)` on patterns that have no
capture group. -/
theorem process_message_unvanish_raises :
    is_unvanished "[Iluvator: [Vanishmod] Iluvator unvanished]" = true
    ∧ process_message v0 "[Iluvator: [Vanishmod] Iluvator unvanished]"
      = .error "IndexError: no such group" := by
  decide

/-- C6 (counterexample): the line `"[Not Secure] <Iluvator> hi"` contains
the known chat prefix `"[Not Secure] "`, and its stripped body passes
shape validation, yet `extract_chat_message` in RUNNING state rejects it
with no event — the eligibility gate tests only the first two prefixes,
so a line whose only known prefix is `"[Not Secure] "` does not pass. -/
theorem not_secure_gate_counterexample :
    py_in pattern_not_secure "[Not Secure] <Iluvator> hi" = true
    ∧ pattern_not_secure ∈ chat_message_patterns_list
    ∧ message_struct_match
        (chat_message_patterns_list.foldl (fun m p => py_split_last p m)
          "[Not Secure] <Iluvator> hi") = true
    ∧ extract_chat_message { is_server_working := true, vanish := v0 }
        "[Not Secure] <Iluvator> hi"
      = .ok ({ is_server_working := true, vanish := v0 }, "") := by
  decide

/-- C6 (amended): when the server status is RUNNING, eligibility is
gated by the first two chat prefixes only: a non-status line containing
neither `pattern_1_19_2` nor `pattern_1_18_4` is rejected with no event
and no state change — even if it contains `"[Not Secure] "`, which takes
part only in prefix stripping. -/
theorem eligibility_gate_amended (v : VState) (msg : String)
    (hstatus : (manage_server_status true msg).1 = "")
    (h0 : py_in pattern_1_19_2 msg = false)
    (h1 : py_in pattern_1_18_4 msg = false) :
    extract_chat_message { is_server_working := true, vanish := v } msg
      = .ok ({ is_server_working := true, vanish := v }, "") := by
  have hms : manage_server_status true msg = ("", true) := by
    unfold manage_server_status at hstatus ⊢
    split at hstatus
    · exact absurd hstatus (by decide)
    · split at hstatus
      · exact absurd hstatus (by decide)
      · split at hstatus
        · exact absurd hstatus (by decide)
        · simp_all
  simp only [extract_chat_message, hms]
  simp [h0, h1]

theorem eligibility_gate_amended_witness :
    (manage_server_status true "plain server noise").1 = ""
    ∧ py_in pattern_1_19_2 "plain server noise" = false
    ∧ py_in pattern_1_18_4 "plain server noise" = false
    ∧ extract_chat_message { is_server_working := true, vanish := v0 }
        "plain server noise"
      = .ok ({ is_server_working := true, vanish := v0 }, "") :=
  ⟨by decide, by decide, by decide,
    eligibility_gate_amended v0 "plain server noise" (by decide) (by decide)
      (by decide)⟩

/-- C9: unvanishing a player whose lowercased name is not in the
vanished set is a no-op: the in-memory set, the storage file and the
write count are all left unchanged (the `KeyError` from `set.remove` is
caught and only a warning is logged — `_dump_data` is not reached). -/
theorem unvanish_missing_player_noop (v : VState) (u : String)
    (h : JVal.str (py_lower u) ∉ v.mem) : unvanish_player v u = v := by
  simp [unvanish_player, h]

theorem unvanish_missing_player_noop_witness :
    JVal.str (py_lower "Bob")
      ∉ ({ mem := [JVal.str "alice"], disk := .listVal [JVal.str "alice"],
           writes := 0 } : VState).mem
    ∧ unvanish_player
        { mem := [JVal.str "alice"], disk := .listVal [JVal.str "alice"],
          writes := 0 } "Bob"
      = { mem := [JVal.str "alice"], disk := .listVal [JVal.str "alice"],
          writes := 0 } :=
  ⟨by decide, unvanish_missing_player_noop _ _ (by decide)⟩

/-- C7 (refuting evaluation): when the server-stopped marker line is
recognised, `get_chat_message` surfaces the transition as an ordinary
outward message string (`"# Сервер остановлен."`), through the very same
return channel as chat messages — not as a distinguishable signal.  The
`ServerStopped`/`ServerStarted` exceptions of `custom_exceptions.py`,
which the bot glue and the tests expect, are never raised by this
parser. -/
theorem server_status_plain_string_eval :
    extract_chat_message { is_server_working := true, vanish := v0 }
      "[25Nov2024 23:05:38.154] [Server thread/INFO] [net.minecraft.server.MinecraftServer/]: Stopping server"
    = .ok ({ is_server_working := false, vanish := v0 }, "# Сервер остановлен.")
    ∧ get_chat_message { is_server_working := true, vanish := v0 }
      ["[25Nov2024 23:05:38.154] [Server thread/INFO] [net.minecraft.server.MinecraftServer/]: Stopping server\n"]
    = .ok ({ is_server_working := false, vanish := v0 }, "# Сервер остановлен.", []) := by
  decide

/-- A set element that is a string equal to its own lowercasing. -/
def is_lower_str : JVal → Bool
  | .str s => py_lower s == s
  | _ => false

/-- C8 (counterexample): constructing a handler over the valid JSON
array `["Steve"]` puts the non-lowercase string `"Steve"` into the
in-memory set — `_load_data` performs no case normalisation (and with
the array `[3]` the set even holds a non-string). -/
theorem load_data_case_counterexample :
    (init_vanish (.listVal [JVal.str "Steve"])).mem = [JVal.str "Steve"]
    ∧ is_lower_str (JVal.str "Steve") = false
    ∧ (init_vanish (.listVal [JVal.num 3])).mem = [JVal.num 3] := by
  decide

/-- C8 (amended): the all-lowercase-strings invariant holds after
construction from a missing, malformed or non-list storage file, and is
preserved by loading a JSON array whose entries are already lowercase
strings (as any file written by `_dump_data` of an invariant-satisfying
state is) and by every vanish/unvanish operation; but loading does not
normalise case, so an arbitrary valid JSON array can break it (see the
counterexample). -/
theorem vanished_set_lowercase_amended (l : List JVal) (v : VState) (u : String)
    (hl : ∀ x ∈ l, is_lower_str x = true)
    (hv : ∀ x ∈ v.mem, is_lower_str x = true) :
    (∀ x ∈ (init_vanish (.listVal l)).mem, is_lower_str x = true)
    ∧ (init_vanish .notFound).mem = []
    ∧ (init_vanish .decodeError).mem = []
    ∧ (init_vanish .nonList).mem = []
    ∧ (∀ x ∈ (vanish_player v u).mem, is_lower_str x = true)
    ∧ (∀ x ∈ (unvanish_player v u).mem, is_lower_str x = true) := by
  refine ⟨?_, rfl, rfl, rfl, ?_, ?_⟩
  · intro x hx
    exact hl x (py_set_subset hx)
  · intro x hx
    simp only [vanish_player, dump_data] at hx
    by_cases hm : JVal.str (py_lower u) ∈ v.mem
    · rw [if_pos hm] at hx
      exact hv x hx
    · rw [if_neg hm] at hx
      rcases List.mem_append.1 hx with h | h
      · exact hv x h
      · simp only [List.mem_singleton] at h
        subst h
        simp [is_lower_str, py_lower_idem]
  · intro x hx
    simp only [unvanish_player] at hx
    by_cases hm : JVal.str (py_lower u) ∈ v.mem
    · rw [if_pos hm] at hx
      simp only [dump_data] at hx
      exact hv x (List.mem_of_mem_erase hx)
    · rw [if_neg hm] at hx
      exact hv x hx

/-- A concrete handler state used by witnesses below. -/
def v_mactep : VState :=
  { mem := [JVal.str "mactep"], disk := .notFound, writes := 0 }

theorem vanished_set_lowercase_amended_witness :
    (∀ x ∈ [JVal.str "steve"], is_lower_str x = true)
    ∧ (∀ x ∈ v_mactep.mem, is_lower_str x = true)
    ∧ (∀ x ∈ (init_vanish (.listVal [JVal.str "steve"])).mem,
        is_lower_str x = true)
    ∧ (∀ x ∈ (vanish_player v_mactep "Bob").mem, is_lower_str x = true) :=
  ⟨by decide, by decide,
    (vanished_set_lowercase_amended [JVal.str "steve"] v_mactep "Bob"
      (by decide) (by decide)).1,
    (vanished_set_lowercase_amended [JVal.str "steve"] v_mactep "Bob"
      (by decide) (by decide)).2.2.2.2.1⟩

/-- C10: every nonempty string returned by `get_chat_message` carries no
trailing whitespace — the returned message is `rstrip`-ped, so the
terminating newline handed through verbatim by `get_new_line` is gone. -/
theorem get_chat_message_rstripped :
    ∀ (lines : List String) (st st' : ParserState) (msg : String)
      (rest : List String),
      get_chat_message st lines = .ok (st', msg, rest) → msg ≠ "" →
      py_rstrip msg = msg := by
  intro lines
  induction lines with
  | nil =>
    intro st st' msg rest h hne
    simp only [get_chat_message, Except.ok.injEq, Prod.mk.injEq] at h
    exact absurd h.2.1.symm hne
  | cons line tl ih =>
    intro st st' msg rest h hne
    rw [get_chat_message] at h
    by_cases hl : line = ""
    · rw [if_pos hl] at h
      simp only [Except.ok.injEq, Prod.mk.injEq] at h
      exact absurd h.2.1.symm hne
    · rw [if_neg hl] at h
      split at h
      next e _ => exact absurd h (by simp)
      next st1 cm _ =>
        split at h
        next hcm =>
          simp only [Except.ok.injEq, Prod.mk.injEq] at h
          rw [← h.2.1]
          exact py_rstrip_idem cm
        next hcm => exact ih st1 st' msg rest h hne

theorem get_chat_message_rstripped_witness :
    get_chat_message { is_server_working := true, vanish := v0 }
      ["[Server thread/INFO] [net.minecraft.server.MinecraftServer/]: Iluvator joined the game\n"]
    = .ok ({ is_server_working := true, vanish := v0 },
        "Iluvator joined the game", [])
    ∧ ("Iluvator joined the game" : String) ≠ ""
    ∧ py_rstrip "Iluvator joined the game" = "Iluvator joined the game" :=
  ⟨by decide, by decide,
    get_chat_message_rstripped
      ["[Server thread/INFO] [net.minecraft.server.MinecraftServer/]: Iluvator joined the game\n"]
      { is_server_working := true, vanish := v0 }
      { is_server_working := true, vanish := v0 }
      "Iluvator joined the game" [] (by decide) (by decide)⟩

/-! ## Tail reader lemmas -/

/-- The position the next `readline` would read from: the open handle's
position when the generator is active, `_last_position` otherwise. -/
def cur_pos (st : TailState) : Nat :=
  match st.gen with
  | some p => p
  | none => st.last_position

theorem take_to_newline_append_eq (l : List Char) :
    take_to_newline l ++ l.drop (take_to_newline l).length = l := by
  induction l with
  | nil => rfl
  | cons a t ih =>
    by_cases h : a = '\n'
    · simp [take_to_newline, h]
    · simp only [take_to_newline, if_neg h, List.length_cons,
        List.cons_append, List.drop_succ_cons]
      rw [ih]

theorem take_to_newline_length_le (l : List Char) :
    (take_to_newline l).length ≤ l.length := by
  have h := congrArg List.length (take_to_newline_append_eq l)
  simp only [List.length_append] at h
  omega

theorem take_to_newline_ne_nil {l : List Char} (h : l ≠ []) :
    take_to_newline l ≠ [] := by
  cases l with
  | nil => exact absurd rfl h
  | cons a t =>
    by_cases ha : a = '\n' <;> simp [take_to_newline, ha]

theorem take_to_newline_take (l : List Char) :
    take_to_newline l = l.take (take_to_newline l).length := by
  have h := take_to_newline_append_eq l
  calc take_to_newline l
      = (take_to_newline l
          ++ l.drop (take_to_newline l).length).take (take_to_newline l).length :=
        (List.take_left _ _).symm
    _ = l.take (take_to_newline l).length := by rw [h]

theorem take_to_newline_nl :
    ∀ l : List Char, l ≠ [] → l.getLast? = some '\n' → NlLine (take_to_newline l) := by
  intro l
  induction l with
  | nil => intro h; exact absurd rfl h
  | cons a t ih =>
    intro _ hlast
    by_cases ha : a = '\n'
    · exact ⟨[], by simp, by simp [take_to_newline, ha]⟩
    · cases t with
      | nil =>
        simp only [List.getLast?_singleton, Option.some.injEq] at hlast
        exact absurd hlast ha
      | cons b t2 =>
        rw [List.getLast?_cons_cons] at hlast
        obtain ⟨m, hm, he⟩ := ih (by simp) hlast
        refine ⟨a :: m, ?_, ?_⟩
        · intro hmem
          rcases List.mem_cons.1 hmem with h | h
          · exact ha h.symm
          · exact hm h
        · have hstep : take_to_newline (a :: b :: t2)
              = a :: take_to_newline (b :: t2) := by
            simp [take_to_newline, ha]
          rw [hstep, he]
          rfl

theorem nl_flatten_getLast :
    ∀ ls : List (List Char), (∀ x ∈ ls, NlLine x) → ls.flatten ≠ [] →
      ls.flatten.getLast? = some '\n' := by
  intro ls
  induction ls with
  | nil => intro _ h; exact absurd rfl h
  | cons x rest ih =>
    intro hnl _
    obtain ⟨m, _, hx⟩ := hnl x (by simp)
    by_cases he : rest.flatten = []
    · simp only [List.flatten_cons, he, List.append_nil, hx]
      rw [List.getLast?_concat]
    · rw [List.flatten_cons, List.getLast?_append_of_ne_nil _ he]
      exact ih (fun y hy => hnl y (by simp [hy])) he

theorem getLast_drop {l : List Char} {n : Nat} (h : n < l.length) :
    (l.drop n).getLast? = l.getLast? := by
  have hne : l.drop n ≠ [] := by
    intro hc
    have := congrArg List.length hc
    simp only [List.length_drop, List.length_nil] at this
    omega
  conv_rhs => rw [← List.take_append_drop n l]
  rw [List.getLast?_append_of_ne_nil _ hne]

theorem nl_append_inj :
    ∀ (m1 m2 r1 r2 : List Char), ¬ '\n' ∈ m1 → ¬ '\n' ∈ m2 →
      m1 ++ '\n' :: r1 = m2 ++ '\n' :: r2 → m1 = m2 ∧ r1 = r2 := by
  intro m1
  induction m1 with
  | nil =>
    intro m2 r1 r2 _ h2 he
    cases m2 with
    | nil =>
      simp only [List.nil_append] at he
      exact ⟨rfl, (List.cons.injEq _ _ _ _ ▸ he).2⟩
    | cons b t =>
      simp only [List.nil_append, List.cons_append, List.cons.injEq] at he
      exact absurd (he.1 ▸ List.mem_cons_self b t) h2
  | cons a t ih =>
    intro m2 r1 r2 h1 h2 he
    cases m2 with
    | nil =>
      simp only [List.cons_append, List.nil_append, List.cons.injEq] at he
      exact absurd (he.1 ▸ List.mem_cons_self a t) h1
    | cons b t2 =>
      simp only [List.cons_append, List.cons.injEq] at he
      obtain ⟨hab, hrest⟩ := he
      obtain ⟨hteq, hreq⟩ := ih t2 r1 r2
        (fun hc => h1 (List.mem_cons_of_mem a hc))
        (fun hc => h2 (List.mem_cons_of_mem b hc)) hrest
      exact ⟨by rw [hab, hteq], hreq⟩

theorem flatten_nl_inj :
    ∀ ls1 ls2 : List (List Char), (∀ x ∈ ls1, NlLine x) →
      (∀ x ∈ ls2, NlLine x) → ls1.flatten = ls2.flatten → ls1 = ls2 := by
  intro ls1
  induction ls1 with
  | nil =>
    intro ls2 _ h2 he
    cases ls2 with
    | nil => rfl
    | cons y r2 =>
      obtain ⟨m, _, hy⟩ := h2 y (by simp)
      rw [List.flatten_nil, List.flatten_cons, hy] at he
      simp at he
  | cons x r ih =>
    intro ls2 h1 h2 he
    cases ls2 with
    | nil =>
      obtain ⟨m, _, hx⟩ := h1 x (by simp)
      rw [List.flatten_cons, List.flatten_nil, hx] at he
      simp at he
    | cons y r2 =>
      obtain ⟨m1, hm1, hx⟩ := h1 x (by simp)
      obtain ⟨m2, hm2, hy⟩ := h2 y (by simp)
      rw [List.flatten_cons, List.flatten_cons, hx, hy] at he
      rw [List.append_assoc, List.append_assoc] at he
      simp only [List.singleton_append] at he
      obtain ⟨hme, hre⟩ := nl_append_inj m1 m2 _ _ hm1 hm2 he
      have hrr : r = r2 :=
        ih r2 (fun z hz => h1 z (by simp [hz]))
          (fun z hz => h2 z (by simp [hz])) hre
      rw [hx, hy, hme, hrr]

theorem is_nl_line_iff (l : List Char) : is_nl_line l = true ↔ NlLine l := by
  constructor
  · intro h
    simp only [is_nl_line, Bool.and_eq_true, Bool.not_eq_true',
      List.isEmpty_eq_false, beq_iff_eq, decide_eq_true_eq] at h
    obtain ⟨⟨hne, hlast⟩, hcont⟩ := h
    refine ⟨l.dropLast, hcont, ?_⟩
    have hg := List.getLast?_eq_getLast l hne
    rw [hg, Option.some.injEq] at hlast
    rw [← hlast]
    exact (List.dropLast_append_getLast hne).symm
  · rintro ⟨m, hm, he⟩
    subst he
    simp only [is_nl_line, Bool.and_eq_true, Bool.not_eq_true',
      List.isEmpty_eq_false, beq_iff_eq, decide_eq_true_eq]
    refine ⟨⟨by simp, ?_⟩, ?_⟩
    · rw [List.getLast?_concat]
    · rw [List.dropLast_concat]
      exact hm

/-- C5: a reconciliation step — `is_file_modified` observing a changed
modification time — leaves the stored read offset at most the current
file size; whenever the observed size is smaller than the stored offset
the offset is reset to 0 and the next poll reads from byte 0 of the new
file content. -/
theorem is_file_modified_offset_invariant (f : MFile) (st : TailState)
    (hm : f.mtime ≠ st.cached_stamp) :
    (is_file_modified f st).2.last_position ≤ f.content.length
    ∧ (f.content.length < st.last_position →
        (is_file_modified f st).2.last_position = 0
        ∧ (st.gen = none → f.content ≠ [] →
            (get_new_line f st).2 = take_to_newline f.content)) := by
  constructor
  · by_cases hs : f.content.length < st.last_position
    · simp [is_file_modified, hm, hs]
    · simp only [is_file_modified, if_pos hm, if_neg hs]
      omega
  · intro hs
    constructor
    · simp [is_file_modified, hm, hs]
    · intro hg hc
      have hlen : 0 < f.content.length := List.length_pos.2 hc
      simp only [get_new_line, hg]
      simp [gen_first_next, is_file_modified, hm, hs, hlen]

def f_shrunk : MFile := { content := "new\n".toList, mtime := 7 }

def st_stale : TailState :=
  { last_position := 10, cached_stamp := 5, gen := none }

theorem is_file_modified_offset_invariant_witness :
    f_shrunk.mtime ≠ st_stale.cached_stamp
    ∧ f_shrunk.content.length < st_stale.last_position
    ∧ (is_file_modified f_shrunk st_stale).2.last_position
        ≤ f_shrunk.content.length
    ∧ (is_file_modified f_shrunk st_stale).2.last_position = 0
    ∧ (get_new_line f_shrunk st_stale).2 = take_to_newline f_shrunk.content :=
  ⟨by decide, by decide,
    (is_file_modified_offset_invariant f_shrunk st_stale (by decide)).1,
    ((is_file_modified_offset_invariant f_shrunk st_stale (by decide)).2
      (by decide)).1,
    ((is_file_modified_offset_invariant f_shrunk st_stale (by decide)).2
      (by decide)).2 (by decide) (by decide)⟩

/-- Invariant tying a reader state and its delivered lines to the file:
`base` is the file size at monitor start.  The delivered lines are
exactly the content between `base` and the next read position, every
delivered line is a complete log line, the cached stamp never runs ahead
of the file's mtime, an up-to-date idle reader has nothing left to read,
and the content past `base` is a sequence of complete lines. -/
def TailInv (base : Nat) (f : MFile) (st : TailState)
    (out : List (List Char)) : Prop :=
  base ≤ cur_pos st
  ∧ cur_pos st ≤ f.content.length
  ∧ out.flatten = (f.content.drop base).take (cur_pos st - base)
  ∧ (∀ l ∈ out, NlLine l)
  ∧ st.cached_stamp ≤ f.mtime
  ∧ (st.cached_stamp = f.mtime → st.gen = none → cur_pos st = f.content.length)
  ∧ (∃ ls : List (List Char), (∀ l ∈ ls, NlLine l)
      ∧ f.content.drop base = ls.flatten)

theorem read_line_spec (base : Nat) (f : MFile) (p : Nat)
    (hbase : base ≤ p) (hp : p < f.content.length)
    (hreg : ∃ ls : List (List Char), (∀ l ∈ ls, NlLine l)
      ∧ f.content.drop base = ls.flatten) :
    NlLine (take_to_newline (f.content.drop p))
    ∧ 0 < (take_to_newline (f.content.drop p)).length
    ∧ p + (take_to_newline (f.content.drop p)).length ≤ f.content.length
    ∧ ∀ out : List (List Char),
        out.flatten = (f.content.drop base).take (p - base) →
        (out ++ [take_to_newline (f.content.drop p)]).flatten
          = (f.content.drop base).take
              (p + (take_to_newline (f.content.drop p)).length - base) := by
  obtain ⟨ls, hnl, hre⟩ := hreg
  have hdm : f.content.drop p = (f.content.drop base).drop (p - base) := by
    rw [List.drop_drop]
    congr 1
    omega
  have hne : f.content.drop p ≠ [] := by
    intro hc
    have := congrArg List.length hc
    simp only [List.length_drop, List.length_nil] at this
    omega
  have hflen : ls.flatten.length = f.content.length - base := by
    have h1 := congrArg List.length hre
    simp only [List.length_drop] at h1
    omega
  have hlast : (f.content.drop p).getLast? = some '\n' := by
    rw [hdm, hre, getLast_drop (by omega)]
    apply nl_flatten_getLast ls hnl
    intro hc
    rw [hc] at hflen
    simp only [List.length_nil] at hflen
    omega
  have hnll : NlLine (take_to_newline (f.content.drop p)) :=
    take_to_newline_nl _ hne hlast
  have hpos : 0 < (take_to_newline (f.content.drop p)).length := by
    cases hq : take_to_newline (f.content.drop p) with
    | nil => exact absurd hq (take_to_newline_ne_nil hne)
    | cons a t => simp
  have hlen : (take_to_newline (f.content.drop p)).length
      ≤ f.content.length - p := by
    have := take_to_newline_length_le (f.content.drop p)
    simpa using this
  refine ⟨hnll, hpos, by omega, ?_⟩
  intro out hout
  rw [List.flatten_append]
  simp only [List.flatten_cons, List.flatten_nil, List.append_nil]
  rw [hout]
  have htake : take_to_newline (f.content.drop p)
      = ((f.content.drop base).drop (p - base)).take
          (take_to_newline (f.content.drop p)).length := by
    conv_lhs => rw [take_to_newline_take]
    rw [hdm]
  conv_lhs => rw [htake]
  have harith : p + (take_to_newline (f.content.drop p)).length - base
      = (p - base) + (take_to_newline (f.content.drop p)).length := by
    omega
  rw [harith, List.take_add]

theorem nl_line_ne_nil {l : List Char} (h : NlLine l) : l ≠ [] := by
  obtain ⟨m, _, rfl⟩ := h
  simp

theorem gen_first_spec (base : Nat) (f : MFile) (st : TailState)
    (out : List (List Char))
    (hgen : st.gen = none)
    (hbase : base ≤ st.last_position)
    (hle : st.last_position ≤ f.content.length)
    (hflat : out.flatten = (f.content.drop base).take (st.last_position - base))
    (hnlout : ∀ l ∈ out, NlLine l)
    (hstamp : st.cached_stamp ≤ f.mtime)
    (hj6 : st.cached_stamp = f.mtime → cur_pos st = f.content.length)
    (hreg : ∃ ls : List (List Char), (∀ l ∈ ls, NlLine l)
      ∧ f.content.drop base = ls.flatten) :
    TailInv base f (gen_first_next f st).1
      (out ++ if (gen_first_next f st).2 = [] then []
        else [(gen_first_next f st).2])
    ∧ (st.last_position = f.content.length →
        (gen_first_next f st).2 = []
        ∧ cur_pos (gen_first_next f st).1 = f.content.length)
    ∧ (st.last_position < f.content.length →
        st.last_position < cur_pos (gen_first_next f st).1) := by
  have hcur : cur_pos st = st.last_position := by simp [cur_pos, hgen]
  by_cases hm : f.mtime = st.cached_stamp
  · have hlp : st.last_position = f.content.length := by
      rw [← hcur]
      exact hj6 hm.symm
    have hifm : is_file_modified f st = (false, st) := by
      simp [is_file_modified, hm]
    have hgfn : gen_first_next f st = ({ st with gen := none }, []) := by
      simp [gen_first_next, hifm]
    have hstn : ({ st with gen := none } : TailState) = st := by
      cases st
      simp_all
    have h1 : (gen_first_next f st).1 = st := by rw [hgfn, hstn]
    have h2 : (gen_first_next f st).2 = [] := by rw [hgfn]
    rw [h1, h2]
    have hifq : (if ([] : List Char) = [] then ([] : List (List Char))
        else [([] : List Char)]) = [] := rfl
    rw [hifq, List.append_nil]
    refine ⟨⟨by omega, by omega, ?_, hnlout, hstamp, fun _ _ => by omega, hreg⟩,
      fun _ => ⟨rfl, by omega⟩, fun hc => absurd hc (by omega)⟩
    rw [hflat, hcur]
  · have hnl2 : ¬ f.content.length < st.last_position := not_lt.2 hle
    have hifm : is_file_modified f st
        = (true, { st with cached_stamp := f.mtime }) := by
      simp [is_file_modified, hm, hnl2]
    by_cases hlt : st.last_position < f.content.length
    · obtain ⟨hnll, hpos, hbound, hupd⟩ :=
        read_line_spec base f st.last_position hbase hlt hreg
      have hgfn : gen_first_next f st
          = ({ st with
                cached_stamp := f.mtime,
                gen := some (st.last_position
                  + (take_to_newline (f.content.drop st.last_position)).length) },
             take_to_newline (f.content.drop st.last_position)) := by
        simp [gen_first_next, hifm, hlt]
      have hlne : take_to_newline (f.content.drop st.last_position) ≠ [] :=
        nl_line_ne_nil hnll
      have h1 : (gen_first_next f st).1
          = { st with
                cached_stamp := f.mtime,
                gen := some (st.last_position
                  + (take_to_newline (f.content.drop st.last_position)).length) } := by
        rw [hgfn]
      have h2 : (gen_first_next f st).2
          = take_to_newline (f.content.drop st.last_position) := by
        rw [hgfn]
      rw [h1, h2]
      simp only [if_neg hlne]
      refine ⟨⟨?_, ?_, ?_, ?_, ?_, ?_, hreg⟩, ?_, ?_⟩
      · simp only [cur_pos]
        omega
      · simp only [cur_pos]
        omega
      · simp only [cur_pos]
        exact hupd out hflat
      · intro l hl
        rcases List.mem_append.1 hl with hc | hc
        · exact hnlout l hc
        · rw [List.mem_singleton.1 hc]
          exact hnll
      · simp
      · intro _ hc
        simp at hc
      · intro hc
        omega
      · intro _
        simp only [cur_pos]
        omega
    · have hlp : st.last_position = f.content.length := by omega
      have hgfn : gen_first_next f st
          = ({ st with cached_stamp := f.mtime, gen := none }, []) := by
        simp [gen_first_next, hifm, hlt]
      have h1 : (gen_first_next f st).1
          = { st with cached_stamp := f.mtime, gen := none } := by
        rw [hgfn]
      have h2 : (gen_first_next f st).2 = [] := by rw [hgfn]
      rw [h1, h2]
      have hifq : (if ([] : List Char) = [] then ([] : List (List Char))
          else [([] : List Char)]) = [] := rfl
      rw [hifq, List.append_nil]
      refine ⟨⟨?_, ?_, ?_, hnlout, ?_, ?_, hreg⟩,
        fun _ => ⟨rfl, ?_⟩, fun hc => absurd hc (by omega)⟩
      · simp only [cur_pos]
        omega
      · simp only [cur_pos]
        omega
      · simp only [cur_pos]
        rw [hflat]
      · simp
      · intro _ _
        simp only [cur_pos]
        omega
      · simp only [cur_pos]
        omega

theorem poll_step (base : Nat) (f : MFile) (st : TailState)
    (out : List (List Char)) (h : TailInv base f st out) :
    TailInv base f (get_new_line f st).1
      (out ++ if (get_new_line f st).2 = [] then []
        else [(get_new_line f st).2])
    ∧ (cur_pos st = f.content.length →
        (get_new_line f st).2 = []
        ∧ cur_pos (get_new_line f st).1 = f.content.length)
    ∧ (cur_pos st < f.content.length →
        cur_pos st < cur_pos (get_new_line f st).1) := by
  obtain ⟨hbase, hle, hflat, hnlout, hstamp, hj6, hreg⟩ := h
  cases hg : st.gen with
  | some p =>
    have hcur : cur_pos st = p := by simp [cur_pos, hg]
    rw [hcur] at hbase hle hflat hj6
    by_cases hp : p < f.content.length
    · obtain ⟨hnll, hpos, hbound, hupd⟩ :=
        read_line_spec base f p hbase hp hreg
      have hgnl : get_new_line f st
          = ({ st with gen := some (p
                + (take_to_newline (f.content.drop p)).length) },
             take_to_newline (f.content.drop p)) := by
        simp [get_new_line, hg, hp]
      have h1 : (get_new_line f st).1
          = { st with gen := some (p
              + (take_to_newline (f.content.drop p)).length) } := by
        rw [hgnl]
      have h2 : (get_new_line f st).2
          = take_to_newline (f.content.drop p) := by
        rw [hgnl]
      rw [h1, h2]
      simp only [if_neg (nl_line_ne_nil hnll)]
      refine ⟨⟨?_, ?_, ?_, ?_, hstamp, ?_, hreg⟩, ?_, ?_⟩
      · simp only [cur_pos]
        omega
      · simp only [cur_pos]
        omega
      · simp only [cur_pos]
        exact hupd out hflat
      · intro l hl
        rcases List.mem_append.1 hl with hc | hc
        · exact hnlout l hc
        · rw [List.mem_singleton.1 hc]
          exact hnll
      · intro _ hc
        simp at hc
      · intro hc
        rw [hcur] at hc
        exact absurd hc (by omega)
      · intro _
        rw [hcur]
        simp only [cur_pos]
        omega
    · have hpe : p = f.content.length := by omega
      have hgnl : get_new_line f st
          = gen_first_next f { st with last_position := p, gen := none } := by
        simp [get_new_line, hg, hp]
      obtain ⟨hti, hdone, hprog⟩ :=
        gen_first_spec base f { st with last_position := p, gen := none } out
          rfl hbase hle hflat hnlout hstamp
          (fun _ => by simp [cur_pos]; omega) hreg
      rw [hgnl]
      refine ⟨hti, ?_, ?_⟩
      · intro _
        exact hdone hpe
      · intro hc
        rw [hcur] at hc
        exact absurd hc (by omega)
  | none =>
    have hcur : cur_pos st = st.last_position := by simp [cur_pos, hg]
    rw [hcur] at hbase hle hflat
    have hgnl : get_new_line f st = gen_first_next f st := by
      simp [get_new_line, hg]
    obtain ⟨hti, hdone, hprog⟩ :=
      gen_first_spec base f st out hg hbase hle hflat hnlout hstamp
        (fun hs => hj6 hs hg) hreg
    rw [hgnl]
    refine ⟨hti, ?_, ?_⟩
    · intro hc
      rw [hcur] at hc
      exact hdone hc
    · intro hc
      rw [hcur] at hc
      have := hprog hc
      rw [hcur]
      exact this

theorem append_step (base : Nat) (f : MFile) (st : TailState)
    (out : List (List Char)) (ls : List (List Char)) (m : Nat)
    (h : TailInv base f st out) (hm : f.mtime < m)
    (hls : ∀ l ∈ ls, NlLine l) :
    TailInv base { content := f.content ++ ls.flatten, mtime := m } st out := by
  obtain ⟨hbase, hle, hflat, hnlout, hstamp, _, ⟨ls0, hnl0, hre0⟩⟩ := h
  have hblen : base ≤ f.content.length := by omega
  refine ⟨hbase, ?_, ?_, hnlout, ?_, ?_, ?_⟩
  · simp only [List.length_append]
    omega
  · rw [hflat]
    simp only
    rw [List.drop_append_of_le_length hblen]
    rw [List.take_append_of_le_length (by simp [List.length_drop]; omega)]
  · simp only
    omega
  · intro hs
    have hsm : st.cached_stamp = m := hs.trans rfl
    omega
  · refine ⟨ls0 ++ ls, ?_, ?_⟩
    · intro l hl
      rcases List.mem_append.1 hl with hc | hc
      · exact hnl0 l hc
      · exact hls l hc
    · simp only
      rw [List.drop_append_of_le_length hblen, hre0, List.flatten_append]

theorem run_events_inv (base : Nat) :
    ∀ (evs : List TEvent) (f : MFile) (st : TailState)
      (out : List (List Char)),
      valid_events f evs = true → TailInv base f st out →
      (run_events evs ⟨f, st, out⟩).file.content
          = f.content ++ (all_lines evs).flatten
        ∧ TailInv base (run_events evs ⟨f, st, out⟩).file
            (run_events evs ⟨f, st, out⟩).tail
            (run_events evs ⟨f, st, out⟩).out := by
  intro evs
  induction evs with
  | nil =>
    intro f st out _ h
    exact ⟨by simp [run_events, all_lines], h⟩
  | cons e rest ih =>
    intro f st out hv h
    cases e with
    | poll =>
      have hv2 : valid_events f rest = true := hv
      obtain ⟨hti, _, _⟩ := poll_step base f st out h
      have hstep : run_events (TEvent.poll :: rest) ⟨f, st, out⟩
          = run_events rest (apply_event ⟨f, st, out⟩ .poll) := rfl
      have hap : apply_event ⟨f, st, out⟩ TEvent.poll
          = ⟨f, (get_new_line f st).1,
              out ++ if (get_new_line f st).2 = [] then []
                else [(get_new_line f st).2]⟩ := rfl
      rw [hstep, hap]
      obtain ⟨hc1, hc2⟩ := ih f (get_new_line f st).1 _ hv2 hti
      rw [hc1]
      exact ⟨by rw [show all_lines (TEvent.poll :: rest) = all_lines rest
        from rfl], hc2⟩
    | append ls mt =>
      simp only [valid_events, Bool.and_eq_true, decide_eq_true_eq,
        List.all_eq_true] at hv
      obtain ⟨⟨hmt, hnls⟩, hvrest⟩ := hv
      have hnls2 : ∀ l ∈ ls, NlLine l := by
        intro l hl
        exact (is_nl_line_iff l).1 (hnls l hl)
      have hti := append_step base f st out ls mt h hmt hnls2
      have hstep : run_events (TEvent.append ls mt :: rest) ⟨f, st, out⟩
          = run_events rest
              ⟨{ content := f.content ++ ls.flatten, mtime := mt }, st, out⟩ :=
        rfl
      rw [hstep]
      obtain ⟨hc1, hc2⟩ :=
        ih { content := f.content ++ ls.flatten, mtime := mt } st out hvrest hti
      refine ⟨?_, hc2⟩
      rw [hc1]
      simp only
      rw [show all_lines (TEvent.append ls mt :: rest) = ls ++ all_lines rest
        from rfl]
      rw [List.flatten_append, List.append_assoc]

theorem run_polls_drain (base : Nat) :
    ∀ (n : Nat) (f : MFile) (st : TailState) (out : List (List Char)),
      TailInv base f st out →
      f.content.length ≤ cur_pos st + n →
      (run_polls n ⟨f, st, out⟩).file = f
      ∧ TailInv base f (run_polls n ⟨f, st, out⟩).tail
          (run_polls n ⟨f, st, out⟩).out
      ∧ cur_pos (run_polls n ⟨f, st, out⟩).tail = f.content.length := by
  intro n
  induction n with
  | zero =>
    intro f st out h hn
    have hle := h.2.1
    refine ⟨rfl, h, ?_⟩
    show cur_pos st = f.content.length
    omega
  | succ k ih =>
    intro f st out h hn
    have hle := h.2.1
    obtain ⟨hti, hdone, hprog⟩ := poll_step base f st out h
    have hstep : run_polls (k + 1) ⟨f, st, out⟩
        = run_polls k (apply_event ⟨f, st, out⟩ .poll) := rfl
    have hap : apply_event ⟨f, st, out⟩ TEvent.poll
        = ⟨f, (get_new_line f st).1,
            out ++ if (get_new_line f st).2 = [] then []
              else [(get_new_line f st).2]⟩ := rfl
    rw [hstep, hap]
    by_cases hc : cur_pos st = f.content.length
    · obtain ⟨_, hcur⟩ := hdone hc
      exact ih f _ _ hti (by omega)
    · have hlt : cur_pos st < f.content.length := by omega
      have := hprog hlt
      exact ih f _ _ hti (by omega)

theorem init_inv (f : MFile) :
    TailInv f.content.length f (init_tail f) [] := by
  have hit : init_tail f
      = { last_position := f.content.length, cached_stamp := f.mtime,
          gen := none } := by
    by_cases hm : f.mtime = 0
    · simp [init_tail, is_file_modified, hm]
    · simp [init_tail, is_file_modified, hm]
  rw [hit]
  refine ⟨?_, ?_, ?_, ?_, ?_, ?_, ?_⟩
  · simp [cur_pos]
  · simp [cur_pos]
  · simp [cur_pos]
  · intro l hl
    simp at hl
  · simp
  · intro _ _
    simp [cur_pos]
  · exact ⟨[], by simp, by simp [List.drop_length]⟩

theorem all_lines_nl :
    ∀ (evs : List TEvent) (f : MFile), valid_events f evs = true →
      ∀ l ∈ all_lines evs, NlLine l := by
  intro evs
  induction evs with
  | nil =>
    intro f _ l hl
    simp [all_lines] at hl
  | cons e rest ih =>
    intro f hv l hl
    cases e with
    | poll => exact ih f hv l hl
    | append ls mt =>
      simp only [valid_events, Bool.and_eq_true, decide_eq_true_eq,
        List.all_eq_true] at hv
      obtain ⟨⟨_, hnls⟩, hvrest⟩ := hv
      rw [show all_lines (.append ls mt :: rest) = ls ++ all_lines rest
        from rfl] at hl
      rcases List.mem_append.1 hl with hc | hc
      · exact (is_nl_line_iff l).1 (hnls l hc)
      · exact ih _ hvrest l hc

/-- C4: for any interleaving of polls with appends of complete lines
(each append advancing the file's modification time), draining the
reader with enough further polls returns exactly the appended lines,
each exactly once, in append order — nothing is replayed and nothing
from the initial content is delivered. -/
theorem tail_reader_each_line_once (f0 : MFile) (evs : List TEvent)
    (hv : valid_events f0 evs = true) :
    (run_polls ((run_events evs (init_run f0)).file.content.length + 1)
        (run_events evs (init_run f0))).out
      = all_lines evs := by
  have hinit : init_run f0 = ⟨f0, init_tail f0, []⟩ := rfl
  rw [hinit]
  obtain ⟨hcont, hti⟩ :=
    run_events_inv f0.content.length evs f0 (init_tail f0) [] hv (init_inv f0)
  set s1 := run_events evs (⟨f0, init_tail f0, []⟩ : RunState) with hs1
  have heta : (⟨s1.file, s1.tail, s1.out⟩ : RunState) = s1 := rfl
  obtain ⟨hfile, hti2, hcur2⟩ :=
    run_polls_drain f0.content.length (s1.file.content.length + 1)
      s1.file s1.tail s1.out hti (by omega)
  rw [heta] at hfile hti2 hcur2
  set s2 := run_polls (s1.file.content.length + 1) s1 with hs2
  obtain ⟨_, _, hflat2, hnl2, _, _, _⟩ := hti2
  rw [hcur2] at hflat2
  have hlen1 : (s1.file.content.drop f0.content.length).length
      = s1.file.content.length - f0.content.length := by
    simp [List.length_drop]
  have hfull : s2.out.flatten = s1.file.content.drop f0.content.length := by
    rw [hflat2]
    exact List.take_of_length_le (by omega)
  have hdrop : s1.file.content.drop f0.content.length
      = (all_lines evs).flatten := by
    rw [hcont]
    exact List.drop_left f0.content (all_lines evs).flatten
  apply flatten_nl_inj s2.out (all_lines evs) hnl2 (all_lines_nl evs f0 hv)
  rw [hfull, hdrop]

def f0w : MFile := { content := "old line\n".toList, mtime := 3 }

def evsw : List TEvent :=
  [.append ["a b\n".toList] 5, .poll,
   .append ["c d\n".toList, "e f\n".toList] 9, .poll]

theorem tail_reader_each_line_once_witness :
    valid_events f0w evsw = true
    ∧ (run_polls ((run_events evsw (init_run f0w)).file.content.length + 1)
        (run_events evsw (init_run f0w))).out = all_lines evsw :=
  ⟨by decide, tail_reader_each_line_once f0w evsw (by decide)⟩
